import Mathlib

/-!
Shallow embedding of the rail-gun notebook (`gun.ipynb`).

Numpy float arrays of length 3 are modelled as `Vec3` over `ℝ`.  The two
floating-point operations that can produce non-finite values in the source
(`np.sqrt` of a negative argument, which yields NaN, and division by zero,
which yields Inf or NaN) are modelled by `Option`-valued operations where
`none` stands for "a non-finite value was produced".  All other arithmetic
in the source acts on finite operands whenever its inputs are finite, so it
is modelled by total real arithmetic.

The notebook's module-level globals (`dist_btwn_wires`, `rail_length`,
`ILeft`, `IRight`, `IProj`) are collected in a `State` record; the
slider-callback prologues that reassign them become functions
`State → ... → State`.
-/

noncomputable section

/-- A length-3 numpy array of floats, modelled as a real vector. -/
@[ext]
structure Vec3 where
  x : ℝ
  y : ℝ
  z : ℝ

namespace Vec3

/-- Models `np.array([0,0,0])`. -/
def zero : Vec3 := ⟨0, 0, 0⟩

/-- Models `np.add`, componentwise. -/
def add (a b : Vec3) : Vec3 := ⟨a.x + b.x, a.y + b.y, a.z + b.z⟩

/-- Multiplication of a vector by a scalar (numpy broadcasting `v * c`). -/
def smul (c : ℝ) (v : Vec3) : Vec3 := ⟨c * v.x, c * v.y, c * v.z⟩

/-- Models `np.divide(v, c)` for a scalar `c`, componentwise. -/
def sdiv (v : Vec3) (c : ℝ) : Vec3 := ⟨v.x / c, v.y / c, v.z / c⟩

/-- Models `np.cross`. -/
def cross (a b : Vec3) : Vec3 :=
  ⟨a.y * b.z - a.z * b.y, a.z * b.x - a.x * b.z, a.x * b.y - a.y * b.x⟩

/-- Models `np.dot`. -/
def dot (a b : Vec3) : ℝ := a.x * b.x + a.y * b.y + a.z * b.z

/-- Models `np.linalg.norm`, the Euclidean norm. -/
def norm (v : Vec3) : ℝ := Real.sqrt (v.x ^ 2 + v.y ^ 2 + v.z ^ 2)

lemma norm_y (t : ℝ) : norm ⟨0, t, 0⟩ = |t| := by
  have h : (0 : ℝ) ^ 2 + t ^ 2 + 0 ^ 2 = t ^ 2 := by ring
  rw [norm, h, Real.sqrt_sq_eq_abs]

lemma norm_x (t : ℝ) : norm ⟨t, 0, 0⟩ = |t| := by
  have h : t ^ 2 + (0 : ℝ) ^ 2 + 0 ^ 2 = t ^ 2 := by ring
  rw [norm, h, Real.sqrt_sq_eq_abs]

lemma norm_z (t : ℝ) : norm ⟨0, 0, t⟩ = |t| := by
  have h : (0 : ℝ) ^ 2 + 0 ^ 2 + t ^ 2 = t ^ 2 := by ring
  rw [norm, h, Real.sqrt_sq_eq_abs]

lemma norm_zero : norm zero = 0 := by
  have := norm_y 0
  simpa [zero] using this

lemma norm_smul (c : ℝ) (v : Vec3) : norm (smul c v) = |c| * norm v := by
  rw [smul, norm, norm]
  have h : (c * v.x) ^ 2 + (c * v.y) ^ 2 + (c * v.z) ^ 2
      = c ^ 2 * (v.x ^ 2 + v.y ^ 2 + v.z ^ 2) := by ring
  rw [h, Real.sqrt_mul (sq_nonneg c), Real.sqrt_sq_eq_abs]

end Vec3

/-- Partial model of `np.sqrt`: on a negative argument numpy returns NaN,
modelled by `none`. -/
def fsqrt (a : ℝ) : Option ℝ := if 0 ≤ a then some (Real.sqrt a) else none

/-- Partial model of float division: a zero divisor makes numpy return
Inf or NaN, modelled by `none`. -/
def fdiv (a b : ℝ) : Option ℝ := if b = 0 then none else some (a / b)

/-- The notebook's module-level globals: `dist_btwn_wires`, `rail_length`
and the three current vectors `ILeft`, `IRight`, `IProj`. -/
structure State where
  dist_btwn_wires : ℝ
  rail_length : ℝ
  ILeft : Vec3
  IRight : Vec3
  IProj : Vec3

/-- The values the globals receive at import time:
`dist_btwn_wires = 3`, `I = 1`, `ILeft = [-I,0,0]`, `IRight = [I,0,0]`,
`IProj = [0,I,0]`, `rail_length = 4`. -/
def initialState : State := ⟨3, 4, ⟨-1, 0, 0⟩, ⟨1, 0, 0⟩, ⟨0, 1, 0⟩⟩

/-- Function `updateCurrent(i_)`: reassigns the three global current vectors. -/
def updateCurrent (s : State) (i : ℝ) : State :=
  { s with ILeft := ⟨-i, 0, 0⟩, IRight := ⟨i, 0, 0⟩, IProj := ⟨0, i, 0⟩ }

/-- The `global dist_btwn_wires, rail_length` assignments followed by
`updateCurrent(i_)` that open the slider callbacks
(`plotOpposingCurrentForces`, `plotProjectileRepulsionForce`,
`calcTotalRailRepulsion`). -/
def setGeometry (s : State) (d l i : ℝ) : State :=
  updateCurrent { s with dist_btwn_wires := d, rail_length := l } i

/-- Function `BFieldLeft`: field of the left rail (axis = x-axis through the origin). -/
def BFieldLeft (s : State) (r : Vec3) : Option Vec3 :=
  let reff : Vec3 := ⟨0, r.y, r.z⟩
  let rnorm := reff.norm
  if rnorm = 0 then some Vec3.zero
  else
    let rhat := reff.sdiv rnorm
    (fsqrt (s.rail_length ^ 2 + r.y)).bind fun sq =>
      (fdiv s.rail_length sq).map fun c =>
        Vec3.smul (1 + c) ((Vec3.cross s.ILeft rhat).sdiv rnorm)

/-- Function `BFieldRight`: field of the right rail (axis = line `y = dist_btwn_wires`,
`z = 0`). -/
def BFieldRight (s : State) (r : Vec3) : Option Vec3 :=
  let reff : Vec3 := ⟨0, r.y - s.dist_btwn_wires, r.z⟩
  let rnorm := reff.norm
  if rnorm = 0 then some Vec3.zero
  else
    let rhat := reff.sdiv rnorm
    (fsqrt (s.rail_length ^ 2 + (s.dist_btwn_wires - r.y))).bind fun sq =>
      (fdiv s.rail_length sq).map fun c =>
        Vec3.smul (1 + c) ((Vec3.cross s.IRight rhat).sdiv rnorm)

/-- Function `BFieldProj`: field of the projectile (axis = y-axis). -/
def BFieldProj (s : State) (r : Vec3) : Option Vec3 :=
  let reff : Vec3 := ⟨r.x, 0, 0⟩
  let rnorm := reff.norm
  if rnorm = 0 then some Vec3.zero
  else
    let rhat := reff.sdiv rnorm
    (fsqrt (s.dist_btwn_wires ^ 2 + r.x)).bind fun sq =>
      (fdiv s.dist_btwn_wires sq).map fun c =>
        Vec3.smul (1 + c) ((Vec3.cross s.IProj rhat).sdiv rnorm)

/-- Function `BFieldOnProjectile(r)`: the combined rail field at `[0, r, 0]`. -/
def BFieldOnProjectile (s : State) (r : ℝ) : Option Vec3 :=
  (BFieldLeft s ⟨0, r, 0⟩).bind fun a =>
    (BFieldRight s ⟨0, r, 0⟩).map fun b => a.add b

/-- The per-sample force value `np.cross(BFieldOnProjectile(i), IProj)`
from `plotProjectileInfo`. -/
def forceOnProjectile (s : State) (r : ℝ) : Option Vec3 :=
  (BFieldOnProjectile s r).map fun b => Vec3.cross b s.IProj

namespace plotOpposingCurrentForces

/-- The `BFieldLeft` redefined locally inside `plotOpposingCurrentForces`:
identical to the global one except that the finite-length end-correction
factor is absent, so no square root or unguarded division occurs. -/
def BFieldLeft (s : State) (r : Vec3) : Vec3 :=
  let reff : Vec3 := ⟨0, r.y, r.z⟩
  let rnorm := reff.norm
  if rnorm = 0 then Vec3.zero
  else (Vec3.cross s.ILeft (reff.sdiv rnorm)).sdiv rnorm

/-- The `BFieldRight` redefined locally inside `plotOpposingCurrentForces`,
without the end-correction factor. -/
def BFieldRight (s : State) (r : Vec3) : Vec3 :=
  let reff : Vec3 := ⟨0, r.y - s.dist_btwn_wires, r.z⟩
  let rnorm := reff.norm
  if rnorm = 0 then Vec3.zero
  else (Vec3.cross s.IRight (reff.sdiv rnorm)).sdiv rnorm

end plotOpposingCurrentForces

/-- The per-sample force `np.cross(ILeft, BFieldProj([i, j, 0]))` from
`plotProjectileRepulsionForce` (sweep mode (d), left-rail samples); it calls
the global, end-corrected `BFieldProj`. -/
def projRepulsionForceLeft (s : State) (p : Vec3) : Option Vec3 :=
  (BFieldProj s p).map fun b => Vec3.cross s.ILeft b

/-- The per-sample scalar from `calcTotalRailRepulsion` (sweep mode (e)):
`norm(cross(ILeft, BFieldProj([i,0,0]))) + norm(cross(ILeft, BFieldRight([i,0,0])))`;
both field calls are to the global, end-corrected definitions. -/
def calcTotalRailRepulsionY (s : State) (i : ℝ) : Option ℝ :=
  (BFieldProj s ⟨i, 0, 0⟩).bind fun bp =>
    (BFieldRight s ⟨i, 0, 0⟩).map fun br =>
      (Vec3.cross s.ILeft bp).norm + (Vec3.cross s.ILeft br).norm

/-- The state built by the sweep-mode-(b) callback `plotProjectileInfo(d_, i_)`:
it reassigns `dist_btwn_wires` and the currents but leaves `rail_length`
unchanged. -/
def plotProjectileInfoState (d i : ℝ) : State :=
  updateCurrent { initialState with dist_btwn_wires := d } i

/-- Sample `i` of `np.linspace(0, 3, 100)`, the sweep-mode-(b) grid at
`dist_btwn_wires = 3`. -/
def sweepPoint (i : ℕ) : ℝ := 3 * i / 99

/-- The sweep-mode-(b) field-magnitude sequence
`[np.linalg.norm(BFieldOnProjectile(i)) for i in np.linspace(0, 3, 100)]`
at `railSeparation = 3`, `railLength = 4`, `current = 1`. -/
def bSeq (i : ℕ) : Option ℝ :=
  (BFieldOnProjectile (plotProjectileInfoState 3 1) (sweepPoint i)).map Vec3.norm

/-- The field expression stated by the spec for a non-degenerate point:
`cross(currentVector, rHat) / r` scaled by the end-correction factor
`(1 + L / sqrt(L^2 + d))`, where `eff` is the perpendicular displacement,
`r = norm(eff)` and `rHat = eff / r`. -/
def specFieldFormula (Ivec eff : Vec3) (L d : ℝ) : Vec3 :=
  Vec3.smul (1 + L / Real.sqrt (L ^ 2 + d))
    ((Vec3.cross Ivec (eff.sdiv eff.norm)).sdiv eff.norm)

/-- Modelled from the spec: the plain infinite-wire expression
`cross(currentVector, rHat) / r`, with no end-correction factor. -/
def infiniteWireField (Ivec eff : Vec3) : Vec3 :=
  (Vec3.cross Ivec (eff.sdiv eff.norm)).sdiv eff.norm

/-! ### Evaluation helpers -/

lemma BFieldLeft_eval (s : State) (r : Vec3)
    (h : Vec3.norm ⟨0, r.y, r.z⟩ ≠ 0) (hd : 0 < s.rail_length ^ 2 + r.y) :
    BFieldLeft s r = some (specFieldFormula s.ILeft ⟨0, r.y, r.z⟩ s.rail_length r.y) := by
  have hsq : Real.sqrt (s.rail_length ^ 2 + r.y) ≠ 0 :=
    ne_of_gt (Real.sqrt_pos.mpr hd)
  simp [BFieldLeft, specFieldFormula, fsqrt, fdiv, h, hd.le, hsq]

lemma BFieldRight_eval (s : State) (r : Vec3)
    (h : Vec3.norm ⟨0, r.y - s.dist_btwn_wires, r.z⟩ ≠ 0)
    (hd : 0 < s.rail_length ^ 2 + (s.dist_btwn_wires - r.y)) :
    BFieldRight s r = some (specFieldFormula s.IRight ⟨0, r.y - s.dist_btwn_wires, r.z⟩
      s.rail_length (s.dist_btwn_wires - r.y)) := by
  have hsq : Real.sqrt (s.rail_length ^ 2 + (s.dist_btwn_wires - r.y)) ≠ 0 :=
    ne_of_gt (Real.sqrt_pos.mpr hd)
  simp [BFieldRight, specFieldFormula, fsqrt, fdiv, h, hd.le, hsq]

lemma BFieldProj_eval (s : State) (r : Vec3)
    (h : Vec3.norm ⟨r.x, 0, 0⟩ ≠ 0) (hd : 0 < s.dist_btwn_wires ^ 2 + r.x) :
    BFieldProj s r = some (specFieldFormula s.IProj ⟨r.x, 0, 0⟩ s.dist_btwn_wires r.x) := by
  have hsq : Real.sqrt (s.dist_btwn_wires ^ 2 + r.x) ≠ 0 :=
    ne_of_gt (Real.sqrt_pos.mpr hd)
  simp [BFieldProj, specFieldFormula, fsqrt, fdiv, h, hd.le, hsq]

/-- Common shape of the three field functions: each of `BFieldLeft`,
`BFieldRight`, `BFieldProj` is definitionally an instance of it. -/
def fieldShape (Ivec eff : Vec3) (L d : ℝ) : Option Vec3 :=
  if eff.norm = 0 then some Vec3.zero
  else
    (fsqrt (L ^ 2 + d)).bind fun sq =>
      (fdiv L sq).map fun c =>
        Vec3.smul (1 + c) ((Vec3.cross Ivec (eff.sdiv eff.norm)).sdiv eff.norm)

lemma BFieldLeft_eq_shape (s : State) (r : Vec3) :
    BFieldLeft s r = fieldShape s.ILeft ⟨0, r.y, r.z⟩ s.rail_length r.y := rfl

lemma BFieldRight_eq_shape (s : State) (r : Vec3) :
    BFieldRight s r = fieldShape s.IRight ⟨0, r.y - s.dist_btwn_wires, r.z⟩
      s.rail_length (s.dist_btwn_wires - r.y) := rfl

lemma BFieldProj_eq_shape (s : State) (r : Vec3) :
    BFieldProj s r = fieldShape s.IProj ⟨r.x, 0, 0⟩ s.dist_btwn_wires r.x := rfl

lemma fieldShape_eq_some {Ivec eff : Vec3} {L d : ℝ} {v : Vec3}
    (h : eff.norm ≠ 0) (hv : fieldShape Ivec eff L d = some v) :
    ∃ c, v = Vec3.smul c ((Vec3.cross Ivec (eff.sdiv eff.norm)).sdiv eff.norm) := by
  rw [fieldShape, if_neg h] at hv
  rcases le_or_lt 0 (L ^ 2 + d) with hX | hX
  · rw [fsqrt, if_pos hX] at hv
    by_cases h0 : Real.sqrt (L ^ 2 + d) = 0
    · rw [Option.some_bind, fdiv, if_pos h0] at hv
      exact Option.noConfusion hv
    · rw [Option.some_bind, fdiv, if_neg h0, Option.map_some'] at hv
      injection hv with hv
      exact ⟨_, hv.symm⟩
  · rw [fsqrt, if_neg (not_le.mpr hX)] at hv
    exact Option.noConfusion hv

lemma fieldShape_isSome (Ivec eff : Vec3) (L d : ℝ) :
    (fieldShape Ivec eff L d).isSome = true ↔ (eff.norm = 0 ∨ 0 < L ^ 2 + d) := by
  rw [fieldShape]
  by_cases h : eff.norm = 0
  · simp [h]
  · rw [if_neg h]
    rcases lt_or_le (L ^ 2 + d) 0 with hX | hX
    · rw [fsqrt, if_neg (not_le.mpr hX)]
      simp [h, hX.asymm]
    · rw [fsqrt, if_pos hX]
      by_cases h0 : L ^ 2 + d = 0
      · rw [Option.some_bind, fdiv, if_pos (by rw [h0, Real.sqrt_zero])]
        simp [h, h0]
      · have hpos : 0 < L ^ 2 + d := lt_of_le_of_ne hX (Ne.symm h0)
        rw [Option.some_bind, fdiv, if_neg (ne_of_gt (Real.sqrt_pos.mpr hpos))]
        simp [h, hpos]

/-- C2: at every query point whose perpendicular distance to the segment's
axis is exactly zero, each of `BFieldLeft`, `BFieldRight`, `BFieldProj`
returns exactly the zero vector rather than failing or dividing by zero. -/
theorem fieldAt_on_axis_zero (s : State) (r : Vec3) :
    (Vec3.norm ⟨0, r.y, r.z⟩ = 0 → BFieldLeft s r = some Vec3.zero) ∧
    (Vec3.norm ⟨0, r.y - s.dist_btwn_wires, r.z⟩ = 0 → BFieldRight s r = some Vec3.zero) ∧
    (Vec3.norm ⟨r.x, 0, 0⟩ = 0 → BFieldProj s r = some Vec3.zero) := by
  refine ⟨fun h => ?_, fun h => ?_, fun h => ?_⟩
  · rw [BFieldLeft_eq_shape, fieldShape, if_pos h]
  · rw [BFieldRight_eq_shape, fieldShape, if_pos h]
  · rw [BFieldProj_eq_shape, fieldShape, if_pos h]

theorem fieldAt_on_axis_zero_witness :
    BFieldLeft initialState ⟨0, 0, 0⟩ = some Vec3.zero ∧
    BFieldRight initialState ⟨0, 3, 0⟩ = some Vec3.zero ∧
    BFieldProj initialState ⟨0, 5, 7⟩ = some Vec3.zero :=
  ⟨(fieldAt_on_axis_zero initialState ⟨0, 0, 0⟩).1
      (by rw [show ((0:ℝ)) = ((0:ℝ)) from rfl, Vec3.norm_y]; norm_num),
   (fieldAt_on_axis_zero initialState ⟨0, 3, 0⟩).2.1
      (by rw [show (3:ℝ) - initialState.dist_btwn_wires = 0 by norm_num [initialState],
              Vec3.norm_y]; norm_num),
   (fieldAt_on_axis_zero initialState ⟨0, 5, 7⟩).2.2
      (by rw [Vec3.norm_x]; norm_num)⟩

/-- C8: the configuration update (`setGeometry`, i.e. the global
reassignments opening each callback, together with `updateCurrent`)
performs no validation: every numeric input, including non-positive
separation or length, is stored unchanged and no error is signalled. -/
theorem setGeometry_stores_unvalidated (s : State) (d l i : ℝ) :
    (setGeometry s d l i).dist_btwn_wires = d ∧
    (setGeometry s d l i).rail_length = l ∧
    (setGeometry s d l i).ILeft = ⟨-i, 0, 0⟩ ∧
    (setGeometry s d l i).IRight = ⟨i, 0, 0⟩ ∧
    (setGeometry s d l i).IProj = ⟨0, i, 0⟩ ∧
    (updateCurrent s i).ILeft = ⟨-i, 0, 0⟩ ∧
    (updateCurrent s i).IRight = ⟨i, 0, 0⟩ ∧
    (updateCurrent s i).IProj = ⟨0, i, 0⟩ :=
  ⟨rfl, rfl, rfl, rfl, rfl, rfl, rfl, rfl⟩

/-- C9: `BFieldProj` returns the zero vector on the whole plane `x = 0`
(not only on the projectile's axis), and its value depends only on the
query point's x-coordinate. -/
theorem BFieldProj_depends_only_on_x (s : State) (x y z y' z' : ℝ) :
    BFieldProj s ⟨0, y, z⟩ = some Vec3.zero ∧
    BFieldProj s ⟨x, y, z⟩ = BFieldProj s ⟨x, y', z'⟩ := by
  refine ⟨?_, rfl⟩
  rw [BFieldProj_eq_shape, fieldShape]
  rw [if_pos (by rw [Vec3.norm_x]; norm_num)]

/-- C10: `BFieldLeft` and `BFieldRight` are invariant under translation of
the query point along the x-axis. -/
theorem BField_rails_x_translation_invariant (s : State) (x x' y z : ℝ) :
    BFieldLeft s ⟨x, y, z⟩ = BFieldLeft s ⟨x', y, z⟩ ∧
    BFieldRight s ⟨x, y, z⟩ = BFieldRight s ⟨x', y, z⟩ :=
  ⟨rfl, rfl⟩

/-! ### Concrete evaluations at points with rational data -/

lemma BFieldLeft_at_0_9_0 : BFieldLeft initialState ⟨0, 9, 0⟩ = some ⟨0, 0, -(1/5)⟩ := by
  have hn : Vec3.norm ⟨0, (9:ℝ), 0⟩ = 9 := by rw [Vec3.norm_y]; norm_num
  have h25 : Real.sqrt (25:ℝ) = 5 := by
    rw [show (25:ℝ) = 5 ^ 2 by norm_num, Real.sqrt_sq (by norm_num : (0:ℝ) ≤ 5)]
  norm_num [BFieldLeft, fsqrt, fdiv, initialState, hn, h25, Vec3.smul, Vec3.sdiv,
    Vec3.cross, Vec3.mk.injEq]

lemma BFieldRight_at_0_neg6_0 :
    BFieldRight initialState ⟨0, -6, 0⟩ = some ⟨0, 0, -(1/5)⟩ := by
  have hn : Vec3.norm ⟨0, (-9:ℝ), 0⟩ = 9 := by rw [Vec3.norm_y]; norm_num
  have h25 : Real.sqrt (25:ℝ) = 5 := by
    rw [show (25:ℝ) = 5 ^ 2 by norm_num, Real.sqrt_sq (by norm_num : (0:ℝ) ≤ 5)]
  norm_num [BFieldRight, fsqrt, fdiv, initialState, hn, h25, Vec3.smul, Vec3.sdiv,
    Vec3.cross, Vec3.mk.injEq]

lemma BFieldProj_at_7_0_0 : BFieldProj initialState ⟨7, 0, 0⟩ = some ⟨0, 0, -(1/4)⟩ := by
  have hn : Vec3.norm ⟨(7:ℝ), 0, 0⟩ = 7 := by rw [Vec3.norm_x]; norm_num
  have h16 : Real.sqrt (16:ℝ) = 4 := by
    rw [show (16:ℝ) = 4 ^ 2 by norm_num, Real.sqrt_sq (by norm_num : (0:ℝ) ≤ 4)]
  norm_num [BFieldProj, fsqrt, fdiv, initialState, hn, h16, Vec3.smul, Vec3.sdiv,
    Vec3.cross, Vec3.mk.injEq]

/-! ### Claims C1, C5, C3 -/

/-- C1: at every query point whose perpendicular distance to the segment's
axis is nonzero (and whose end-correction radicand `L^2 + d` is positive, so
that the claimed formula's square root and division are themselves defined),
each of `BFieldLeft`, `BFieldRight`, `BFieldProj` returns
`cross(currentVector, rHat) / r` scaled by `(1 + L / sqrt(L^2 + d))`, where
the effective point zeroes the axis coordinate and subtracts the transverse
offset, and `d` is the directional component used to build it (for
`BFieldRight`, `d = dist_btwn_wires - r.y`, the negation of the effective
y-component). -/
theorem fieldAt_eq_corrected_formula (s : State) (r : Vec3) :
    (Vec3.norm ⟨0, r.y, r.z⟩ ≠ 0 → 0 < s.rail_length ^ 2 + r.y →
      BFieldLeft s r = some (specFieldFormula s.ILeft ⟨0, r.y, r.z⟩ s.rail_length r.y)) ∧
    (Vec3.norm ⟨0, r.y - s.dist_btwn_wires, r.z⟩ ≠ 0 →
      0 < s.rail_length ^ 2 + (s.dist_btwn_wires - r.y) →
      BFieldRight s r = some (specFieldFormula s.IRight ⟨0, r.y - s.dist_btwn_wires, r.z⟩
        s.rail_length (s.dist_btwn_wires - r.y))) ∧
    (Vec3.norm ⟨r.x, 0, 0⟩ ≠ 0 → 0 < s.dist_btwn_wires ^ 2 + r.x →
      BFieldProj s r = some (specFieldFormula s.IProj ⟨r.x, 0, 0⟩ s.dist_btwn_wires r.x)) :=
  ⟨BFieldLeft_eval s r, BFieldRight_eval s r, BFieldProj_eval s r⟩

theorem fieldAt_eq_corrected_formula_witness :
    BFieldLeft initialState ⟨0, 9, 0⟩
      = some (specFieldFormula initialState.ILeft ⟨0, 9, 0⟩ initialState.rail_length 9) ∧
    BFieldRight initialState ⟨0, -6, 0⟩
      = some (specFieldFormula initialState.IRight ⟨0, -6 - initialState.dist_btwn_wires, 0⟩
          initialState.rail_length (initialState.dist_btwn_wires - (-6))) ∧
    BFieldProj initialState ⟨7, 0, 0⟩
      = some (specFieldFormula initialState.IProj ⟨7, 0, 0⟩ initialState.dist_btwn_wires 7) :=
  ⟨(fieldAt_eq_corrected_formula initialState ⟨0, 9, 0⟩).1
      (by show Vec3.norm ⟨0, (9:ℝ), 0⟩ ≠ 0; rw [Vec3.norm_y]; norm_num)
      (by show (0:ℝ) < initialState.rail_length ^ 2 + 9; norm_num [initialState]),
   (fieldAt_eq_corrected_formula initialState ⟨0, -6, 0⟩).2.1
      (by show Vec3.norm ⟨0, (-6:ℝ) - initialState.dist_btwn_wires, 0⟩ ≠ 0
          rw [show (-6:ℝ) - initialState.dist_btwn_wires = -9 by norm_num [initialState],
            Vec3.norm_y]
          norm_num)
      (by show (0:ℝ) < initialState.rail_length ^ 2 + (initialState.dist_btwn_wires - (-6))
          norm_num [initialState]),
   (fieldAt_eq_corrected_formula initialState ⟨7, 0, 0⟩).2.2
      (by show Vec3.norm ⟨(7:ℝ), 0, 0⟩ ≠ 0; rw [Vec3.norm_x]; norm_num)
      (by show (0:ℝ) < initialState.dist_btwn_wires ^ 2 + 7; norm_num [initialState])⟩

/-- C5: every vector actually returned by a field function at a point of
nonzero perpendicular distance has exactly zero dot product with both the
segment's current vector and the perpendicular displacement vector. -/
theorem fieldAt_perpendicular (s : State) (r : Vec3) :
    (Vec3.norm ⟨0, r.y, r.z⟩ ≠ 0 → ∀ v, BFieldLeft s r = some v →
      Vec3.dot v s.ILeft = 0 ∧ Vec3.dot v ⟨0, r.y, r.z⟩ = 0) ∧
    (Vec3.norm ⟨0, r.y - s.dist_btwn_wires, r.z⟩ ≠ 0 → ∀ v, BFieldRight s r = some v →
      Vec3.dot v s.IRight = 0 ∧ Vec3.dot v ⟨0, r.y - s.dist_btwn_wires, r.z⟩ = 0) ∧
    (Vec3.norm ⟨r.x, 0, 0⟩ ≠ 0 → ∀ v, BFieldProj s r = some v →
      Vec3.dot v s.IProj = 0 ∧ Vec3.dot v ⟨r.x, 0, 0⟩ = 0) := by
  refine ⟨fun h v hv => ?_, fun h v hv => ?_, fun h v hv => ?_⟩
  · rw [BFieldLeft_eq_shape] at hv
    obtain ⟨c, rfl⟩ := fieldShape_eq_some h hv
    constructor <;> · simp only [Vec3.dot, Vec3.cross, Vec3.smul, Vec3.sdiv]; ring
  · rw [BFieldRight_eq_shape] at hv
    obtain ⟨c, rfl⟩ := fieldShape_eq_some h hv
    constructor <;> · simp only [Vec3.dot, Vec3.cross, Vec3.smul, Vec3.sdiv]; ring
  · rw [BFieldProj_eq_shape] at hv
    obtain ⟨c, rfl⟩ := fieldShape_eq_some h hv
    constructor <;> · simp only [Vec3.dot, Vec3.cross, Vec3.smul, Vec3.sdiv]; ring

theorem fieldAt_perpendicular_witness :
    (Vec3.dot ⟨0, 0, -(1/5)⟩ initialState.ILeft = 0 ∧
      Vec3.dot ⟨0, 0, -(1/5)⟩ ⟨0, 9, 0⟩ = 0) ∧
    (Vec3.dot ⟨0, 0, -(1/5)⟩ initialState.IRight = 0 ∧
      Vec3.dot ⟨0, 0, -(1/5)⟩ ⟨0, -6 - initialState.dist_btwn_wires, 0⟩ = 0) ∧
    (Vec3.dot ⟨0, 0, -(1/4)⟩ initialState.IProj = 0 ∧
      Vec3.dot ⟨0, 0, -(1/4)⟩ ⟨7, 0, 0⟩ = 0) :=
  ⟨(fieldAt_perpendicular initialState ⟨0, 9, 0⟩).1
      (by show Vec3.norm ⟨0, (9:ℝ), 0⟩ ≠ 0; rw [Vec3.norm_y]; norm_num)
      _ BFieldLeft_at_0_9_0,
   (fieldAt_perpendicular initialState ⟨0, -6, 0⟩).2.1
      (by show Vec3.norm ⟨0, (-6:ℝ) - initialState.dist_btwn_wires, 0⟩ ≠ 0
          rw [show (-6:ℝ) - initialState.dist_btwn_wires = -9 by norm_num [initialState],
            Vec3.norm_y]
          norm_num)
      _ BFieldRight_at_0_neg6_0,
   (fieldAt_perpendicular initialState ⟨7, 0, 0⟩).2.2
      (by show Vec3.norm ⟨(7:ℝ), 0, 0⟩ ≠ 0; rw [Vec3.norm_x]; norm_num)
      _ BFieldProj_at_7_0_0⟩

/-- C3 counterexample: the default geometry is strictly positive and the
query point (0, -16, 1) has nonzero perpendicular distance to the left
rail's axis, yet its directional component d = -16 satisfies d = -L^2, so
`BFieldLeft` divides `rail_length` by `sqrt(L^2 + d) = 0` and the result is
non-finite (an Inf/NaN vector, modelled as `none`), contradicting the
claimed finiteness for all d <= -L^2. -/
theorem fieldAt_nonfinite_at_neg_Lsq :
    0 < initialState.dist_btwn_wires ∧ 0 < initialState.rail_length ∧
    Vec3.norm ⟨0, (-16:ℝ), 1⟩ ≠ 0 ∧
    BFieldLeft initialState ⟨0, -16, 1⟩ = none := by
  have hn : Vec3.norm ⟨0, (-16:ℝ), 1⟩ ≠ 0 := by
    rw [Vec3.norm]
    exact ne_of_gt (Real.sqrt_pos.mpr (by norm_num))
  refine ⟨by norm_num [initialState], by norm_num [initialState], hn, ?_⟩
  have hz : initialState.rail_length ^ 2 + (-16:ℝ) = 0 := by norm_num [initialState]
  rw [BFieldLeft_eq_shape, fieldShape,
    if_neg (by show Vec3.norm ⟨0, (-16:ℝ), 1⟩ ≠ 0; exact hn)]
  rw [show fsqrt (initialState.rail_length ^ 2 + (-16:ℝ)) = some 0 by
    rw [fsqrt, if_pos (le_of_eq hz.symm), hz, Real.sqrt_zero]]
  rw [Option.some_bind, fdiv, if_pos rfl]
  rfl

/-- C3 amended: a rail field evaluation is finite (returns a vector) exactly
when the point lies on the axis (the guarded zero-vector case) or the
end-correction radicand `L^2 + d` is strictly positive; for `d <= -L^2` with
nonzero perpendicular distance the result is non-finite. -/
theorem fieldAt_finite_iff (s : State) (r : Vec3) :
    ((BFieldLeft s r).isSome = true ↔
      (Vec3.norm ⟨0, r.y, r.z⟩ = 0 ∨ 0 < s.rail_length ^ 2 + r.y)) ∧
    ((BFieldRight s r).isSome = true ↔
      (Vec3.norm ⟨0, r.y - s.dist_btwn_wires, r.z⟩ = 0 ∨
        0 < s.rail_length ^ 2 + (s.dist_btwn_wires - r.y))) := by
  constructor
  · rw [BFieldLeft_eq_shape]
    exact fieldShape_isSome _ _ _ _
  · rw [BFieldRight_eq_shape]
    exact fieldShape_isSome _ _ _ _

/-! ### Current-scaling lemmas (claim C4) -/

lemma fieldShape_smul_current (k : ℝ) (Ivec eff : Vec3) (L d : ℝ) :
    fieldShape (Vec3.smul k Ivec) eff L d = (fieldShape Ivec eff L d).map (Vec3.smul k) := by
  rw [fieldShape, fieldShape]
  by_cases h : eff.norm = 0
  · rw [if_pos h, if_pos h, Option.map_some']
    exact congrArg some (Vec3.ext (by show (0:ℝ) = k * 0; ring)
      (by show (0:ℝ) = k * 0; ring) (by show (0:ℝ) = k * 0; ring))
  · rw [if_neg h, if_neg h]
    cases hsq : fsqrt (L ^ 2 + d) with
    | none => rfl
    | some sq =>
      rw [Option.some_bind, Option.some_bind]
      cases hdv : fdiv L sq with
      | none => rfl
      | some c =>
        rw [Option.map_some', Option.map_some', Option.map_some']
        refine congrArg some (Vec3.ext ?_ ?_ ?_)
        · show (1 + c) * ((k * Ivec.y * (eff.z / eff.norm) - k * Ivec.z * (eff.y / eff.norm))
              / eff.norm)
            = k * ((1 + c) * ((Ivec.y * (eff.z / eff.norm) - Ivec.z * (eff.y / eff.norm))
              / eff.norm))
          ring
        · show (1 + c) * ((k * Ivec.z * (eff.x / eff.norm) - k * Ivec.x * (eff.z / eff.norm))
              / eff.norm)
            = k * ((1 + c) * ((Ivec.z * (eff.x / eff.norm) - Ivec.x * (eff.z / eff.norm))
              / eff.norm))
          ring
        · show (1 + c) * ((k * Ivec.x * (eff.y / eff.norm) - k * Ivec.y * (eff.x / eff.norm))
              / eff.norm)
            = k * ((1 + c) * ((Ivec.x * (eff.y / eff.norm) - Ivec.y * (eff.x / eff.norm))
              / eff.norm))
          ring

lemma BFieldLeft_updateCurrent_smul (s : State) (i k : ℝ) (r : Vec3) :
    BFieldLeft (updateCurrent s (k * i)) r
      = (BFieldLeft (updateCurrent s i) r).map (Vec3.smul k) := by
  rw [BFieldLeft_eq_shape, BFieldLeft_eq_shape]
  have hI : (updateCurrent s (k * i)).ILeft = Vec3.smul k (updateCurrent s i).ILeft :=
    Vec3.ext (by show -(k * i) = k * -i; ring) (by show (0:ℝ) = k * 0; ring)
      (by show (0:ℝ) = k * 0; ring)
  rw [hI]
  exact fieldShape_smul_current k _ _ _ _

lemma BFieldRight_updateCurrent_smul (s : State) (i k : ℝ) (r : Vec3) :
    BFieldRight (updateCurrent s (k * i)) r
      = (BFieldRight (updateCurrent s i) r).map (Vec3.smul k) := by
  rw [BFieldRight_eq_shape, BFieldRight_eq_shape]
  have hI : (updateCurrent s (k * i)).IRight = Vec3.smul k (updateCurrent s i).IRight :=
    Vec3.ext rfl (by show (0:ℝ) = k * 0; ring) (by show (0:ℝ) = k * 0; ring)
  rw [hI]
  exact fieldShape_smul_current k _ _ _ _

lemma BFieldProj_updateCurrent_smul (s : State) (i k : ℝ) (r : Vec3) :
    BFieldProj (updateCurrent s (k * i)) r
      = (BFieldProj (updateCurrent s i) r).map (Vec3.smul k) := by
  rw [BFieldProj_eq_shape, BFieldProj_eq_shape]
  have hI : (updateCurrent s (k * i)).IProj = Vec3.smul k (updateCurrent s i).IProj :=
    Vec3.ext (by show (0:ℝ) = k * 0; ring) rfl (by show (0:ℝ) = k * 0; ring)
  rw [hI]
  exact fieldShape_smul_current k _ _ _ _

lemma BFieldOnProjectile_updateCurrent_smul (s : State) (i k r : ℝ) :
    BFieldOnProjectile (updateCurrent s (k * i)) r
      = (BFieldOnProjectile (updateCurrent s i) r).map (Vec3.smul k) := by
  rw [BFieldOnProjectile, BFieldOnProjectile, BFieldLeft_updateCurrent_smul,
    BFieldRight_updateCurrent_smul]
  cases BFieldLeft (updateCurrent s i) ⟨0, r, 0⟩ with
  | none => rfl
  | some a =>
    cases BFieldRight (updateCurrent s i) ⟨0, r, 0⟩ with
    | none => rfl
    | some b =>
      rw [Option.map_some', Option.map_some', Option.some_bind, Option.some_bind,
        Option.map_some', Option.map_some', Option.map_some']
      refine congrArg some (Vec3.ext ?_ ?_ ?_)
      · show k * a.x + k * b.x = k * (a.x + b.x); ring
      · show k * a.y + k * b.y = k * (a.y + b.y); ring
      · show k * a.z + k * b.z = k * (a.z + b.z); ring

lemma forceOnProjectile_updateCurrent_smul (s : State) (i k r : ℝ) :
    forceOnProjectile (updateCurrent s (k * i)) r
      = (forceOnProjectile (updateCurrent s i) r).map (Vec3.smul (k * k)) := by
  rw [forceOnProjectile, forceOnProjectile, BFieldOnProjectile_updateCurrent_smul]
  cases BFieldOnProjectile (updateCurrent s i) r with
  | none => rfl
  | some b =>
    rw [Option.map_some', Option.map_some', Option.map_some']
    refine congrArg some (Vec3.ext ?_ ?_ ?_)
    · show k * b.y * 0 - k * b.z * (k * i) = k * k * (b.y * 0 - b.z * i); ring
    · show k * b.z * 0 - k * b.x * 0 = k * k * (b.z * 0 - b.x * 0); ring
    · show k * b.x * (k * i) - k * b.y * 0 = k * k * (b.x * i - b.y * 0); ring

/-! ### Concrete evaluations for the C4 scenario
(`railSeparation = 3`, `railLength = 3`, point `(0, 1.5, 0)`). -/

lemma BFieldLeft_c4 :
    BFieldLeft (setGeometry initialState 3 3 1) ⟨0, 3/2, 0⟩
      = some ⟨0, 0, -(2/3) * (1 + 3 / Real.sqrt (21/2))⟩ := by
  have hn : Vec3.norm ⟨0, (3/2:ℝ), 0⟩ = 3/2 := by rw [Vec3.norm_y]; norm_num
  have hs0 : Real.sqrt ((21:ℝ)/2) ≠ 0 := ne_of_gt (Real.sqrt_pos.mpr (by norm_num))
  norm_num [BFieldLeft, fsqrt, fdiv, setGeometry, updateCurrent, initialState, hn, hs0,
    Vec3.smul, Vec3.sdiv, Vec3.cross, Vec3.mk.injEq]
  ring

lemma BFieldRight_c4 :
    BFieldRight (setGeometry initialState 3 3 1) ⟨0, 3/2, 0⟩
      = some ⟨0, 0, -(2/3) * (1 + 3 / Real.sqrt (21/2))⟩ := by
  have hn : Vec3.norm ⟨0, (-(3/2):ℝ), 0⟩ = 3/2 := by rw [Vec3.norm_y]; norm_num
  have hs0 : Real.sqrt ((21:ℝ)/2) ≠ 0 := ne_of_gt (Real.sqrt_pos.mpr (by norm_num))
  norm_num [BFieldRight, fsqrt, fdiv, setGeometry, updateCurrent, initialState, hn, hs0,
    Vec3.smul, Vec3.sdiv, Vec3.cross, Vec3.mk.injEq]
  ring

lemma BFieldOnProjectile_c4 :
    BFieldOnProjectile (setGeometry initialState 3 3 1) (3/2)
      = some ⟨0, 0, -((4/3) * (1 + 3 / Real.sqrt (21/2)))⟩ := by
  rw [BFieldOnProjectile, BFieldLeft_c4, BFieldRight_c4, Option.some_bind, Option.map_some']
  refine congrArg some (Vec3.ext ?_ ?_ ?_)
  · show (0:ℝ) + 0 = 0; ring
  · show (0:ℝ) + 0 = 0; ring
  · show -(2/3) * (1 + 3 / Real.sqrt (21/2)) + -(2/3) * (1 + 3 / Real.sqrt (21/2))
        = -((4/3) * (1 + 3 / Real.sqrt (21/2)))
    ring

lemma forceOnProjectile_c4 :
    forceOnProjectile (setGeometry initialState 3 3 1) (3/2)
      = some ⟨(4/3) * (1 + 3 / Real.sqrt (21/2)), 0, 0⟩ := by
  rw [forceOnProjectile, BFieldOnProjectile_c4, Option.map_some']
  refine congrArg some (Vec3.ext ?_ ?_ ?_)
  · show (0:ℝ) * 0 - -((4/3) * (1 + 3 / Real.sqrt (21/2))) * 1
        = (4/3) * (1 + 3 / Real.sqrt (21/2))
    ring
  · show -((4/3) * (1 + 3 / Real.sqrt (21/2))) * 0 - (0:ℝ) * 0 = 0; ring
  · show (0:ℝ) * 1 - 0 * 0 = 0; ring

lemma c4_factor_pos : 0 < (4/3) * (1 + 3 / Real.sqrt (21/2)) := by
  have h : 0 < Real.sqrt ((21:ℝ)/2) := Real.sqrt_pos.mpr (by norm_num)
  positivity

/-- C4 counterexample: at railSeparation = 3, railLength = 3, point
(0, 1.5, 0), the force magnitude `norm(cross(BFieldOnProjectile(r), IProj))`
at current 2 is four times -- not twice -- its value at current 1, because
both the field and the projectile current scale with the current. -/
theorem force_not_doubled :
    (forceOnProjectile (setGeometry initialState 3 3 2) (3/2)).map Vec3.norm
      ≠ (forceOnProjectile (setGeometry initialState 3 3 1) (3/2)).map
          (fun v => 2 * Vec3.norm v) := by
  have h := forceOnProjectile_updateCurrent_smul
    { initialState with dist_btwn_wires := 3, rail_length := 3 } 1 2 (3/2)
  norm_num at h
  have hc := forceOnProjectile_c4
  simp only [setGeometry] at hc
  simp only [setGeometry]
  rw [h, hc]
  simp only [Option.map_some', Vec3.norm_smul, Vec3.norm_x, Option.some.injEq]
  simp only [abs_of_pos c4_factor_pos]
  have hF := c4_factor_pos
  intro hEq
  rw [show |(4:ℝ)| = 4 by norm_num, Option.some.injEq] at hEq
  linarith

/-- C4 amended: doubling currentMagnitude (via updateCurrent) doubles every
field vector but quadruples every force vector; concretely at
railSeparation = 3, railLength = 3, point (0, 1.5, 0), the field magnitude
at current 2 is twice, and the force magnitude four times, the value at
current 1. -/
theorem double_current_scaling :
    (∀ (s : State) (i : ℝ) (r : Vec3),
      BFieldLeft (updateCurrent s (2 * i)) r
        = (BFieldLeft (updateCurrent s i) r).map (Vec3.smul 2)) ∧
    (∀ (s : State) (i : ℝ) (r : Vec3),
      BFieldRight (updateCurrent s (2 * i)) r
        = (BFieldRight (updateCurrent s i) r).map (Vec3.smul 2)) ∧
    (∀ (s : State) (i : ℝ) (r : Vec3),
      BFieldProj (updateCurrent s (2 * i)) r
        = (BFieldProj (updateCurrent s i) r).map (Vec3.smul 2)) ∧
    (∀ (s : State) (i r : ℝ),
      forceOnProjectile (updateCurrent s (2 * i)) r
        = (forceOnProjectile (updateCurrent s i) r).map (Vec3.smul 4)) ∧
    ((BFieldOnProjectile (setGeometry initialState 3 3 2) (3/2)).map Vec3.norm
      = some (2 * ((4/3) * (1 + 3 / Real.sqrt (21/2))))) ∧
    ((BFieldOnProjectile (setGeometry initialState 3 3 1) (3/2)).map Vec3.norm
      = some ((4/3) * (1 + 3 / Real.sqrt (21/2)))) ∧
    ((forceOnProjectile (setGeometry initialState 3 3 2) (3/2)).map Vec3.norm
      = some (4 * ((4/3) * (1 + 3 / Real.sqrt (21/2))))) ∧
    ((forceOnProjectile (setGeometry initialState 3 3 1) (3/2)).map Vec3.norm
      = some ((4/3) * (1 + 3 / Real.sqrt (21/2)))) := by
  refine ⟨fun s i r => BFieldLeft_updateCurrent_smul s i 2 r,
    fun s i r => BFieldRight_updateCurrent_smul s i 2 r,
    fun s i r => BFieldProj_updateCurrent_smul s i 2 r,
    fun s i r => ?_, ?_, ?_, ?_, ?_⟩
  · have h := forceOnProjectile_updateCurrent_smul s i 2 r
    norm_num at h
    exact h
  · have h := BFieldOnProjectile_updateCurrent_smul
      { initialState with dist_btwn_wires := 3, rail_length := 3 } 1 2 (3/2)
    norm_num at h
    have hc := BFieldOnProjectile_c4
    simp only [setGeometry] at hc
    simp only [setGeometry]
    rw [h, hc]
    simp only [Option.map_some', Vec3.norm_smul, Vec3.norm_z, abs_neg]
    simp only [abs_of_pos c4_factor_pos]
    norm_num
  · have hc := BFieldOnProjectile_c4
    rw [hc, Option.map_some', Vec3.norm_z, abs_neg, abs_of_pos c4_factor_pos]

  · have h := forceOnProjectile_updateCurrent_smul
      { initialState with dist_btwn_wires := 3, rail_length := 3 } 1 2 (3/2)
    norm_num at h
    have hc := forceOnProjectile_c4
    simp only [setGeometry] at hc
    simp only [setGeometry]
    rw [h, hc]
    simp only [Option.map_some', Vec3.norm_smul, Vec3.norm_x]
    simp only [abs_of_pos c4_factor_pos]
    norm_num
  · have hc := forceOnProjectile_c4
    rw [hc, Option.map_some', Vec3.norm_x, abs_of_pos c4_factor_pos]

/-! ### Claim C7: which repulsion plots use the end-correction factor -/

/-- Modelled from the spec: the value the mode-(e) sample
(`calcTotalRailRepulsion`) would take were both of its field calls the
plain infinite-wire expression with no end-correction factor. -/
def calcTotalRailRepulsionYPlain (s : State) (i : ℝ) : ℝ :=
  (Vec3.cross s.ILeft (infiniteWireField s.IProj ⟨i, 0, 0⟩)).norm
    + (Vec3.cross s.ILeft (infiniteWireField s.IRight ⟨0, 0 - s.dist_btwn_wires, 0⟩)).norm

lemma BFieldProj_mode_e :
    BFieldProj (setGeometry initialState 3 3 1) ⟨3, 0, 0⟩
      = some ⟨0, 0, -((1/3) * (1 + 3 / Real.sqrt 12))⟩ := by
  have hn : Vec3.norm ⟨(3:ℝ), 0, 0⟩ = 3 := by rw [Vec3.norm_x]; norm_num
  have hs0 : Real.sqrt (12:ℝ) ≠ 0 := ne_of_gt (Real.sqrt_pos.mpr (by norm_num))
  norm_num [BFieldProj, fsqrt, fdiv, setGeometry, updateCurrent, initialState, hn, hs0,
    Vec3.smul, Vec3.sdiv, Vec3.cross, Vec3.mk.injEq]
  ring

lemma BFieldRight_mode_e :
    BFieldRight (setGeometry initialState 3 3 1) ⟨3, 0, 0⟩
      = some ⟨0, 0, -((1/3) * (1 + 3 / Real.sqrt 12))⟩ := by
  have hn : Vec3.norm ⟨0, (-3:ℝ), 0⟩ = 3 := by rw [Vec3.norm_y]; norm_num
  have hs0 : Real.sqrt (12:ℝ) ≠ 0 := ne_of_gt (Real.sqrt_pos.mpr (by norm_num))
  norm_num [BFieldRight, fsqrt, fdiv, setGeometry, updateCurrent, initialState, hn, hs0,
    Vec3.smul, Vec3.sdiv, Vec3.cross, Vec3.mk.injEq]
  ring

lemma mode_e_factor_pos : 0 < (1/3) * (1 + 3 / Real.sqrt 12) := by
  have h : 0 < Real.sqrt (12:ℝ) := Real.sqrt_pos.mpr (by norm_num)
  positivity

/-- C7 counterexample: in sweep mode (d)/(e) the field entering the
repulsion cross product is the global, end-corrected `BFieldProj`; at the
first sampled point (3, 0, 0) of the default geometry its value differs
from the plain infinite-wire expression. -/
theorem repulsion_field_not_plain :
    BFieldProj (setGeometry initialState 3 3 1) ⟨3, 0, 0⟩
      ≠ some (infiniteWireField (setGeometry initialState 3 3 1).IProj ⟨3, 0, 0⟩) := by
  have hn : Vec3.norm ⟨(3:ℝ), 0, 0⟩ = 3 := by rw [Vec3.norm_x]; norm_num
  have hplain : infiniteWireField (setGeometry initialState 3 3 1).IProj ⟨3, 0, 0⟩
      = ⟨0, 0, -(1/3)⟩ := by
    norm_num [infiniteWireField, setGeometry, updateCurrent, initialState, hn,
      Vec3.sdiv, Vec3.cross, Vec3.mk.injEq]
  rw [BFieldProj_mode_e, hplain]
  intro hEq
  simp only [Option.some.injEq, Vec3.mk.injEq] at hEq
  have h12 : 0 < Real.sqrt (12:ℝ) := Real.sqrt_pos.mpr (by norm_num)
  have ht : 0 < 3 / Real.sqrt (12:ℝ) := by positivity
  obtain ⟨-, -, hz⟩ := hEq
  nlinarith [hz, ht]

/-- C7 amended: only the mode-(c) callback `plotOpposingCurrentForces`
redefines the rail fields without the end-correction factor (off the axis
they equal the plain infinite-wire expression); the mode-(d)/(e)
visualizations call the global, end-corrected `BFieldProj`/`BFieldRight`,
so the mode-(e) sample differs from its plain infinite-wire counterpart. -/
theorem repulsion_fields_characterization (s : State) (r : Vec3) :
    (Vec3.norm ⟨0, r.y, r.z⟩ ≠ 0 →
      plotOpposingCurrentForces.BFieldLeft s r = infiniteWireField s.ILeft ⟨0, r.y, r.z⟩) ∧
    (Vec3.norm ⟨0, r.y - s.dist_btwn_wires, r.z⟩ ≠ 0 →
      plotOpposingCurrentForces.BFieldRight s r
        = infiniteWireField s.IRight ⟨0, r.y - s.dist_btwn_wires, r.z⟩) ∧
    calcTotalRailRepulsionY (setGeometry initialState 3 3 1) 3
      ≠ some (calcTotalRailRepulsionYPlain (setGeometry initialState 3 3 1) 3) := by
  refine ⟨fun h => ?_, fun h => ?_, ?_⟩
  · simp only [plotOpposingCurrentForces.BFieldLeft]
    rw [if_neg h]
    rfl
  · simp only [plotOpposingCurrentForces.BFieldRight]
    rw [if_neg h]
    rfl
  · have hβ : Vec3.norm ⟨0, -((1/3) * (1 + 3 / Real.sqrt 12)), 0⟩
        = (1/3) * (1 + 3 / Real.sqrt 12) := by
      rw [Vec3.norm_y, abs_neg, abs_of_pos mode_e_factor_pos]
    have hactual : calcTotalRailRepulsionY (setGeometry initialState 3 3 1) 3
        = some (2 * ((1/3) * (1 + 3 / Real.sqrt 12))) := by
      rw [calcTotalRailRepulsionY, BFieldProj_mode_e, BFieldRight_mode_e, Option.some_bind,
        Option.map_some']
      refine congrArg some ?_
      have hc : Vec3.cross (setGeometry initialState 3 3 1).ILeft
          ⟨0, 0, -((1/3) * (1 + 3 / Real.sqrt 12))⟩
          = ⟨0, -((1/3) * (1 + 3 / Real.sqrt 12)), 0⟩ := by
        refine Vec3.ext ?_ ?_ ?_
        · show (0:ℝ) * -((1/3) * (1 + 3 / Real.sqrt 12)) - 0 * 0 = 0; ring
        · show (0:ℝ) * 0 - -1 * -((1/3) * (1 + 3 / Real.sqrt 12))
              = -((1/3) * (1 + 3 / Real.sqrt 12))
          ring
        · show (-1:ℝ) * 0 - 0 * 0 = 0; ring
      rw [hc, hβ]
      ring
    have hplainval : calcTotalRailRepulsionYPlain (setGeometry initialState 3 3 1) 3
        = 2 * (1/3) := by
      have hn3 : Vec3.norm ⟨(3:ℝ), 0, 0⟩ = 3 := by rw [Vec3.norm_x]; norm_num
      have hnm3 : Vec3.norm ⟨0, (0:ℝ) - 3, 0⟩ = 3 := by
        rw [show (0:ℝ) - 3 = -3 by norm_num, Vec3.norm_y]; norm_num
      have h13 : Vec3.norm ⟨0, (-(1/3):ℝ), 0⟩ = 1/3 := by rw [Vec3.norm_y]; norm_num
      norm_num [calcTotalRailRepulsionYPlain, infiniteWireField, setGeometry, updateCurrent,
        initialState, hn3, hnm3, h13, Vec3.sdiv, Vec3.cross, Vec3.norm_y]
    rw [hactual, hplainval]
    intro hEq
    simp only [Option.some.injEq] at hEq
    have h12 : 0 < Real.sqrt (12:ℝ) := Real.sqrt_pos.mpr (by norm_num)
    have ht : 0 < 3 / Real.sqrt (12:ℝ) := by positivity
    nlinarith [hEq, ht]

theorem repulsion_fields_characterization_witness :
    plotOpposingCurrentForces.BFieldLeft initialState ⟨0, 9, 0⟩
      = infiniteWireField initialState.ILeft ⟨0, 9, 0⟩ ∧
    plotOpposingCurrentForces.BFieldRight initialState ⟨0, -6, 0⟩
      = infiniteWireField initialState.IRight ⟨0, -6 - initialState.dist_btwn_wires, 0⟩ :=
  ⟨(repulsion_fields_characterization initialState ⟨0, 9, 0⟩).1
      (by show Vec3.norm ⟨0, (9:ℝ), 0⟩ ≠ 0; rw [Vec3.norm_y]; norm_num),
   (repulsion_fields_characterization initialState ⟨0, -6, 0⟩).2.1
      (by show Vec3.norm ⟨0, (-6:ℝ) - initialState.dist_btwn_wires, 0⟩ ≠ 0
          rw [show (-6:ℝ) - initialState.dist_btwn_wires = -9 by norm_num [initialState],
            Vec3.norm_y]
          norm_num)⟩

/-! ### Claim C6: the sweep-mode-(b) magnitude sequence
at `railSeparation = 3`, `railLength = 4`, `current = 1`. -/

/-- The single-rail magnitude term of the sweep: at distance `t` from a rail
the rail contributes `(1/t) * (1 + 4 / sqrt(16 + t))` to the combined field
magnitude on the projectile axis. -/
def hAux (t : ℝ) : ℝ := t⁻¹ * (1 + 4 * (Real.sqrt (16 + t))⁻¹)

/-- The combined field magnitude on the projectile axis at `0 < r < 3`. -/
def gAux (r : ℝ) : ℝ := hAux r + hAux (3 - r)

lemma hAux_pos {t : ℝ} (h : 0 < t) : 0 < hAux t := by
  rw [hAux]
  exact mul_pos (inv_pos.mpr h) (by positivity)

lemma gAux_pos {r : ℝ} (h0 : 0 < r) (h3 : r < 3) : 0 < gAux r :=
  add_pos (hAux_pos h0) (hAux_pos (by linarith))

lemma gAux_symm (r : ℝ) : gAux (3 - r) = gAux r := by
  rw [gAux, gAux, show (3:ℝ) - (3 - r) = r by ring, add_comm]

lemma BFieldLeft_sweep (r : ℝ) (h0 : 0 < r) :
    BFieldLeft (plotProjectileInfoState 3 1) ⟨0, r, 0⟩ = some ⟨0, 0, -(hAux r)⟩ := by
  have hn : Vec3.norm ⟨0, r, 0⟩ = r := by rw [Vec3.norm_y]; exact abs_of_pos h0
  have hs0 : Real.sqrt (16 + r) ≠ 0 := ne_of_gt (Real.sqrt_pos.mpr (by linarith))
  have h16 : (4:ℝ) ^ 2 + r = 16 + r := by norm_num
  simp only [BFieldLeft, plotProjectileInfoState, updateCurrent, initialState, fsqrt, fdiv,
    hn, h16, hAux]
  rw [if_neg h0.ne', if_pos (by linarith : (0:ℝ) ≤ 16 + r), Option.some_bind, if_neg hs0,
    Option.map_some']
  refine congrArg some (Vec3.ext ?_ ?_ ?_)
  · show (1 + 4 / Real.sqrt (16 + r)) * ((0 * (0 / r) - 0 * (r / r)) / r) = 0
    ring
  · show (1 + 4 / Real.sqrt (16 + r)) * ((0 * (0 / r) - -1 * (0 / r)) / r) = 0
    ring
  · show (1 + 4 / Real.sqrt (16 + r)) * ((-1 * (r / r) - 0 * (0 / r)) / r)
        = -(r⁻¹ * (1 + 4 * (Real.sqrt (16 + r))⁻¹))
    rw [div_self h0.ne']
    field_simp
    exact Or.inl (mul_comm r (Real.sqrt (16 + r)))

lemma BFieldRight_sweep (r : ℝ) (h3 : r < 3) :
    BFieldRight (plotProjectileInfoState 3 1) ⟨0, r, 0⟩ = some ⟨0, 0, -(hAux (3 - r))⟩ := by
  have h3r : (0:ℝ) < 3 - r := by linarith
  have hn : Vec3.norm ⟨0, r - 3, 0⟩ = 3 - r := by
    rw [Vec3.norm_y, abs_of_neg (by linarith : r - 3 < 0)]
    ring
  have hs0 : Real.sqrt (16 + (3 - r)) ≠ 0 := ne_of_gt (Real.sqrt_pos.mpr (by linarith))
  have h16 : (4:ℝ) ^ 2 + (3 - r) = 16 + (3 - r) := by norm_num
  simp only [BFieldRight, plotProjectileInfoState, updateCurrent, initialState, fsqrt, fdiv,
    hn, h16, hAux]
  rw [if_neg h3r.ne', if_pos (by linarith : (0:ℝ) ≤ 16 + (3 - r)), Option.some_bind,
    if_neg hs0, Option.map_some']
  refine congrArg some (Vec3.ext ?_ ?_ ?_)
  · show (1 + 4 / Real.sqrt (16 + (3 - r)))
        * ((0 * (0 / (3 - r)) - 0 * ((r - 3) / (3 - r))) / (3 - r)) = 0
    ring
  · show (1 + 4 / Real.sqrt (16 + (3 - r)))
        * ((0 * (0 / (3 - r)) - 1 * (0 / (3 - r))) / (3 - r)) = 0
    ring
  · show (1 + 4 / Real.sqrt (16 + (3 - r)))
        * ((1 * ((r - 3) / (3 - r)) - 0 * (0 / (3 - r))) / (3 - r))
        = -((3 - r)⁻¹ * (1 + 4 * (Real.sqrt (16 + (3 - r)))⁻¹))
    field_simp
    ring

lemma BFieldOnProjectile_sweep (r : ℝ) (h0 : 0 < r) (h3 : r < 3) :
    BFieldOnProjectile (plotProjectileInfoState 3 1) r = some ⟨0, 0, -(gAux r)⟩ := by
  rw [BFieldOnProjectile, BFieldLeft_sweep r h0, BFieldRight_sweep r h3, Option.some_bind,
    Option.map_some']
  refine congrArg some (Vec3.ext ?_ ?_ ?_)
  · show (0:ℝ) + 0 = 0; ring
  · show (0:ℝ) + 0 = 0; ring
  · show -(hAux r) + -(hAux (3 - r)) = -(gAux r)
    rw [gAux]; ring

lemma sweepPoint_pos {i : ℕ} (h1 : 1 ≤ i) : 0 < sweepPoint i := by
  rw [sweepPoint]
  have hi : (0:ℝ) < i := by exact_mod_cast Nat.lt_of_lt_of_le Nat.zero_lt_one h1
  exact div_pos (by linarith) (by norm_num)

lemma sweepPoint_lt_three {i : ℕ} (h98 : i ≤ 98) : sweepPoint i < 3 := by
  rw [sweepPoint]
  have hi : (i:ℝ) ≤ 98 := by exact_mod_cast h98
  rw [div_lt_iff (by norm_num : (0:ℝ) < 99)]
  linarith

lemma bSeq_eval (i : ℕ) (h1 : 1 ≤ i) (h98 : i ≤ 98) :
    bSeq i = some (gAux (sweepPoint i)) := by
  have h0 := sweepPoint_pos h1
  have h3 := sweepPoint_lt_three h98
  rw [bSeq, BFieldOnProjectile_sweep _ h0 h3, Option.map_some']
  refine congrArg some ?_
  rw [Vec3.norm_z, abs_neg, abs_of_pos (gAux_pos h0 h3)]

lemma convexOn_congr {s : Set ℝ} {f g : ℝ → ℝ} (hf : ConvexOn ℝ s f)
    (h : ∀ x, f x = g x) : ConvexOn ℝ s g := by
  have hfg : f = g := funext h
  rwa [hfg] at hf

lemma inv_convexOn_Ioi : ConvexOn ℝ (Set.Ioi (0:ℝ)) (fun t : ℝ => t⁻¹) := by
  have h := (@strictConvexOn_zpow (-1) (by decide) (by decide)).convexOn
  exact convexOn_congr h fun t => zpow_neg_one t

lemma sqrtInv_convexOn :
    ConvexOn ℝ (Set.Ioo (0:ℝ) 3) (fun t => (Real.sqrt (16 + t))⁻¹) := by
  refine ⟨convex_Ioo 0 3, fun x hx y hy a b ha hb hab => ?_⟩
  simp only [smul_eq_mul]
  have hx16 : (0:ℝ) < 16 + x := by linarith [hx.1]
  have hy16 : (0:ℝ) < 16 + y := by linarith [hy.1]
  have hu : 0 < Real.sqrt (16 + x) := Real.sqrt_pos.mpr hx16
  have hv : 0 < Real.sqrt (16 + y) := Real.sqrt_pos.mpr hy16
  have hcomb : (0:ℝ) < a * Real.sqrt (16 + x) + b * Real.sqrt (16 + y) := by
    rcases eq_or_lt_of_le ha with rfl | ha'
    · rw [zero_add] at hab
      rw [hab]
      simpa using hv
    · have : 0 ≤ b * Real.sqrt (16 + y) := mul_nonneg hb hv.le
      nlinarith
  have hconc : a * Real.sqrt (16 + x) + b * Real.sqrt (16 + y)
      ≤ Real.sqrt (16 + (a * x + b * y)) := by
    have h := (Real.strictConcaveOn_sqrt.concaveOn).2
      (Set.mem_Ici.mpr hx16.le) (Set.mem_Ici.mpr hy16.le) ha hb hab
    simp only [smul_eq_mul] at h
    have harg : a * (16 + x) + b * (16 + y) = 16 + (a * x + b * y) := by
      linear_combination (16:ℝ) * hab
    rwa [harg] at h
  calc (Real.sqrt (16 + (a * x + b * y)))⁻¹
      ≤ (a * Real.sqrt (16 + x) + b * Real.sqrt (16 + y))⁻¹ :=
        inv_le_inv_of_le hcomb hconc
    _ ≤ a * (Real.sqrt (16 + x))⁻¹ + b * (Real.sqrt (16 + y))⁻¹ := by
        have h := inv_convexOn_Ioi.2 (Set.mem_Ioi.mpr hu) (Set.mem_Ioi.mpr hv) ha hb hab
        simpa [smul_eq_mul] using h

lemma hAux_convexOn : ConvexOn ℝ (Set.Ioo (0:ℝ) 3) hAux := by
  have hinv : ConvexOn ℝ (Set.Ioo (0:ℝ) 3) (fun t : ℝ => t⁻¹) :=
    inv_convexOn_Ioi.subset (fun x hx => hx.1) (convex_Ioo 0 3)
  have hprod : ConvexOn ℝ (Set.Ioo (0:ℝ) 3)
      ((fun t : ℝ => t⁻¹) * fun t => (Real.sqrt (16 + t))⁻¹) := by
    refine hinv.mul sqrtInv_convexOn (fun x hx => ?_) (fun x hx => ?_) ?_
    · have := hx.1
      positivity
    · positivity
    · intro i hi j hj hlt
      have hsi : 0 < Real.sqrt (16 + i) := Real.sqrt_pos.mpr (by linarith [hi.1])
      have hsj : 0 < Real.sqrt (16 + j) := Real.sqrt_pos.mpr (by linarith [hj.1])
      have hsq : Real.sqrt (16 + j) < Real.sqrt (16 + i) := (inv_lt_inv hsi hsj).mp hlt
      have hji : j < i := by
        by_contra hle
        push_neg at hle
        exact absurd (Real.sqrt_le_sqrt (by linarith : 16 + i ≤ 16 + j)) (not_le.mpr hsq)
      exact inv_le_inv_of_le hj.1 hji.le
  have hsum := hinv.add (hprod.smul (by norm_num : (0:ℝ) ≤ 4))
  refine convexOn_congr hsum fun t => ?_
  simp only [Pi.add_apply, Pi.mul_apply, smul_eq_mul, hAux]
  ring

lemma hAux_slope_le {a b c d : ℝ} (ha : a ∈ Set.Ioo (0:ℝ) 3) (hb : b ∈ Set.Ioo (0:ℝ) 3)
    (hc : c ∈ Set.Ioo (0:ℝ) 3) (hd : d ∈ Set.Ioo (0:ℝ) 3)
    (hab : a < b) (hbc : b ≤ c) (hcd : c < d) :
    (hAux b - hAux a) / (b - a) ≤ (hAux d - hAux c) / (d - c) := by
  rcases eq_or_lt_of_le hbc with rfl | hbc'
  · exact hAux_convexOn.slope_mono_adjacent ha hd hab hcd
  · calc (hAux b - hAux a) / (b - a)
        ≤ (hAux c - hAux b) / (c - b) := hAux_convexOn.slope_mono_adjacent ha hc hab hbc'
      _ ≤ (hAux d - hAux c) / (d - c) := hAux_convexOn.slope_mono_adjacent hb hd hbc' hcd

lemma gAux_anti {a b : ℝ} (h0 : 0 < a) (hab : a < b) (hb : b ≤ 3/2) : gAux b ≤ gAux a := by
  have hamem : a ∈ Set.Ioo (0:ℝ) 3 := ⟨h0, by linarith⟩
  have hbmem : b ∈ Set.Ioo (0:ℝ) 3 := ⟨by linarith, by linarith⟩
  have hcmem : (3 - b) ∈ Set.Ioo (0:ℝ) 3 := ⟨by linarith, by linarith⟩
  have hdmem : (3 - a) ∈ Set.Ioo (0:ℝ) 3 := ⟨by linarith, by linarith⟩
  have hslope := hAux_slope_le hamem hbmem hcmem hdmem hab (by linarith) (by linarith)
  have hba : (0:ℝ) < b - a := by linarith
  rw [show (3 - a) - (3 - b) = b - a by ring] at hslope
  have hX : hAux b - hAux a ≤ hAux (3 - a) - hAux (3 - b) :=
    (div_le_div_right hba).mp hslope
  rw [gAux, gAux]
  linarith

lemma gAux_mono {a b : ℝ} (ha : 3/2 ≤ a) (hab : a < b) (hb : b < 3) : gAux a ≤ gAux b := by
  have h := @gAux_anti (3 - b) (3 - a) (by linarith) (by linarith) (by linarith)
  rwa [gAux_symm, gAux_symm] at h

lemma bSeq_0 : bSeq 0 = some ((1 + 4 / Real.sqrt 19) * (1/3)) := by
  have hsp : sweepPoint 0 = 0 := by rw [sweepPoint]; norm_num
  have hnL : Vec3.norm ⟨0, (0:ℝ), 0⟩ = 0 := by rw [Vec3.norm_y]; norm_num
  have hnR : Vec3.norm ⟨0, (-3:ℝ), 0⟩ = 3 := by rw [Vec3.norm_y]; norm_num
  have hs0 : Real.sqrt (19:ℝ) ≠ 0 := ne_of_gt (Real.sqrt_pos.mpr (by norm_num))
  have hfac : (0:ℝ) < (1 + 4 / Real.sqrt 19) * (1/3) := by
    have h19 : 0 < Real.sqrt (19:ℝ) := Real.sqrt_pos.mpr (by norm_num)
    positivity
  have hB : BFieldOnProjectile (plotProjectileInfoState 3 1) 0
      = some ⟨0, 0, -((1 + 4 / Real.sqrt 19) * (1/3))⟩ := by
    norm_num [BFieldOnProjectile, BFieldLeft, BFieldRight, fsqrt, fdiv, plotProjectileInfoState,
      updateCurrent, initialState, hnL, hnR, hs0, Vec3.smul, Vec3.sdiv, Vec3.cross, Vec3.add,
      Vec3.zero, Vec3.mk.injEq]
  rw [bSeq, hsp, hB, Option.map_some', Vec3.norm_z, abs_neg, abs_of_pos hfac]

/-- C6 counterexample: the first two samples of the sweep-mode-(b)
field-magnitude sequence increase: at `r = 0` the point lies on the left
rail's axis, so the guarded left-rail term is the zero vector and the sample
is small, while the next sample (distance 1/33 from the rail) is large;
hence the sequence is not non-increasing from the rail toward the midpoint. -/
theorem bSeq_increases_at_left_rail :
    (bSeq 0).isSome = true ∧ (bSeq 1).isSome = true ∧
    (bSeq 0).getD 0 < (bSeq 1).getD 0 := by
  have h0 := bSeq_0
  have h1 : bSeq 1 = some (gAux (sweepPoint 1)) := bSeq_eval 1 (le_refl 1) (by norm_num)
  rw [h0, h1]
  refine ⟨rfl, rfl, ?_⟩
  simp only [Option.getD_some]
  have hs19 : (4:ℝ) ≤ Real.sqrt 19 := by
    have h16 : Real.sqrt (16:ℝ) = 4 := by
      rw [show (16:ℝ) = 4 ^ 2 by norm_num, Real.sqrt_sq (by norm_num : (0:ℝ) ≤ 4)]
    rw [← h16]
    exact Real.sqrt_le_sqrt (by norm_num)
  have h19 : (0:ℝ) < Real.sqrt 19 := by linarith
  have hub : (1 + 4 / Real.sqrt 19) * (1/3) ≤ 2/3 := by
    have hd1 : 4 / Real.sqrt 19 ≤ 1 := by
      rw [div_le_one h19]
      exact hs19
    linarith
  have hsp : sweepPoint 1 = 1/33 := by rw [sweepPoint]; push_cast; norm_num
  have hlb : (33:ℝ) ≤ gAux (sweepPoint 1) := by
    rw [hsp, gAux]
    have ha : (33:ℝ) ≤ hAux (1/33) := by
      rw [hAux]
      have hpos : (0:ℝ) < Real.sqrt (16 + 1/33) := Real.sqrt_pos.mpr (by norm_num)
      have hnn : (0:ℝ) ≤ 4 * (Real.sqrt (16 + 1/33))⁻¹ := by positivity
      have hinv : ((1:ℝ)/33)⁻¹ = 33 := by norm_num
      rw [hinv]
      nlinarith
    have hb : 0 < hAux (3 - 1/33) := hAux_pos (by norm_num)
    linarith
  linarith

/-- C6 amended: excluding the two endpoint samples (where the on-axis guard
suppresses one rail's contribution), the sweep-mode-(b) field-magnitude
sequence is unimodal: non-increasing over sample indexes 1..49, non-
decreasing over 50..98, with its minimum attained at the two middle samples
49 and 50 (nearest `r = 1.5`), which are equal by symmetry. -/
theorem bSeq_interior_unimodal :
    (∀ i j : ℕ, 1 ≤ i → i ≤ j → j ≤ 49 →
      (bSeq i).isSome = true ∧ (bSeq j).isSome = true ∧
        (bSeq j).getD 0 ≤ (bSeq i).getD 0) ∧
    (∀ i j : ℕ, 50 ≤ i → i ≤ j → j ≤ 98 →
      (bSeq i).isSome = true ∧ (bSeq j).isSome = true ∧
        (bSeq i).getD 0 ≤ (bSeq j).getD 0) ∧
    bSeq 49 = bSeq 50 := by
  refine ⟨?_, ?_, ?_⟩
  · intro i j h1 hij h49
    have hei := bSeq_eval i h1 (by omega)
    have hej := bSeq_eval j (by omega) (by omega)
    rw [hei, hej]
    refine ⟨rfl, rfl, ?_⟩
    simp only [Option.getD_some]
    rcases eq_or_lt_of_le hij with rfl | hlt
    · exact le_refl _
    · have hsp : sweepPoint i < sweepPoint j := by
        rw [sweepPoint, sweepPoint]
        have hc : (i:ℝ) < j := by exact_mod_cast hlt
        apply (div_lt_div_right (by norm_num : (0:ℝ) < 99)).mpr
        linarith
      have hj32 : sweepPoint j ≤ 3/2 := by
        rw [sweepPoint]
        have hc : (j:ℝ) ≤ 49 := by exact_mod_cast h49
        rw [div_le_iff (by norm_num : (0:ℝ) < 99)]
        linarith
      exact gAux_anti (sweepPoint_pos h1) hsp hj32
  · intro i j h50 hij h98
    have hei := bSeq_eval i (by omega) (by omega)
    have hej := bSeq_eval j (by omega) h98
    rw [hei, hej]
    refine ⟨rfl, rfl, ?_⟩
    simp only [Option.getD_some]
    rcases eq_or_lt_of_le hij with rfl | hlt
    · exact le_refl _
    · have hsp : sweepPoint i < sweepPoint j := by
        rw [sweepPoint, sweepPoint]
        have hc : (i:ℝ) < j := by exact_mod_cast hlt
        apply (div_lt_div_right (by norm_num : (0:ℝ) < 99)).mpr
        linarith
      have hi32 : 3/2 ≤ sweepPoint i := by
        rw [sweepPoint]
        have hc : (50:ℝ) ≤ i := by exact_mod_cast h50
        rw [le_div_iff (by norm_num : (0:ℝ) < 99)]
        linarith
      exact gAux_mono hi32 hsp (sweepPoint_lt_three h98)
  · rw [bSeq_eval 49 (by norm_num) (by norm_num), bSeq_eval 50 (by norm_num) (by norm_num)]
    have hsym : sweepPoint 49 = 3 - sweepPoint 50 := by
      rw [sweepPoint, sweepPoint]
      push_cast
      norm_num
    rw [hsym, gAux_symm]

theorem bSeq_interior_unimodal_witness :
    (bSeq 1).isSome = true ∧ (bSeq 2).isSome = true ∧
      (bSeq 2).getD 0 ≤ (bSeq 1).getD 0 :=
  bSeq_interior_unimodal.1 1 2 (by norm_num) (by norm_num) (by norm_num)
